import Mathlib

/-!
Shallow embedding of `batch_captions.py`, a batch YouTube-caption downloader.

Strings are modelled as `List Char`; the external services (transcript
provider, translation service, playlist listing, title lookup) are modelled
as explicit inputs whose failure modes are values (`Option` / `Except`),
mirroring the exceptions the script catches.  Python-level text helpers
(`str.strip`, `str.splitlines`, `str.split`, `re.sub` on the concrete
patterns used, `urllib.parse`) are embedded for the character sets the
script manipulates; Unicode-only niceties (exotic line breaks, percent
decoding) are out of scope and noted at each definition.
-/

namespace BatchCaptions

/-! ## Python string primitives -/

/-- Whitespace for `str.strip()` (ASCII subset of Python's whitespace). -/
def isPySpace (c : Char) : Bool :=
  c == ' ' || c == '\t' || c == '\n' || c == '\r' || c == '\x0b' || c == '\x0c'

/-- Line-break characters recognised by `str.splitlines()` (the common
ASCII ones; Python additionally treats some rare control and Unicode
characters as breaks, which never occur in this script's inputs). -/
def isLineBreak (c : Char) : Bool := c == '\n' || c == '\r'

/-- Drop trailing characters satisfying `p`. -/
def rstripWhile (p : Char → Bool) (l : List Char) : List Char :=
  (l.reverse.dropWhile p).reverse

/-- Python `str.strip()`: drop leading and trailing whitespace. -/
def pystrip (l : List Char) : List Char :=
  rstripWhile isPySpace (l.dropWhile isPySpace)

/-- Fuelled accumulator loop for `str.splitlines()`; `acc` holds the
current line reversed.  A `"\r\n"` pair counts as a single break, and a
break at the very end of the string does not open a new empty line.  Each
step consumes at least one character, so `fuel = length` suffices and the
fuel-exhausted branch is unreachable. -/
def splitlinesGo : Nat → List Char → List Char → List (List Char)
  | _, acc, [] => [acc.reverse]
  | 0, acc, l => [acc.reverse ++ l]
  | fuel + 1, acc, c :: cs =>
    if isLineBreak c then
      if (if c == '\r' && cs.head? == some '\n' then cs.tail else cs).isEmpty then
        [acc.reverse]
      else
        acc.reverse ::
          splitlinesGo fuel [] (if c == '\r' && cs.head? == some '\n' then cs.tail else cs)
    else splitlinesGo fuel (c :: acc) cs

/-- Python `str.splitlines()`; the empty string yields no lines. -/
def splitlines : List Char → List (List Char)
  | [] => []
  | c :: cs => splitlinesGo (c :: cs).length [] (c :: cs)

/-- Accumulator loop for `str.split(sep)` with a one-character separator. -/
def splitOnCharGo (sep : Char) : List Char → List Char → List (List Char)
  | acc, [] => [acc.reverse]
  | acc, c :: cs =>
    if c == sep then acc.reverse :: splitOnCharGo sep [] cs
    else splitOnCharGo sep (c :: acc) cs

/-- Python `str.split(sep)` for a one-character separator (used for
splitting a query string on `'&'`). -/
def splitOnChar (sep : Char) (l : List Char) : List (List Char) :=
  splitOnCharGo sep [] l

/-- Python substring test `sub in s`. -/
def containsSub (sub s : List Char) : Bool :=
  (List.range (s.length + 1)).any (fun i => sub.isPrefixOf (List.drop i s))

/-! ## `sanitize_filename` (line 21-23) -/

/-- Character class of the regex `[\\/*?:"<>|]` in `sanitize_filename`. -/
def invalidFilenameChars : List Char := ['\\', '/', '*', '?', ':', '"', '<', '>', '|']

/-- Embedding of `sanitize_filename`: `re.sub(r'[\\/*?:"<>|]', "", name)`
deletes every occurrence of a denylisted character. -/
def sanitize_filename (name : List Char) : List Char :=
  name.filter (fun c => !invalidFilenameChars.contains c)

/-! ## `read_batches_from_links_file` (lines 25-36), file already read -/

/-- Canonical separator the script substitutes: thirteen dashes. -/
def sep13 : List Char := List.replicate 13 '-'

/-- Replacement for a finished maximal dash run: runs of five or more
become `sep13`, shorter runs are kept verbatim (so `re.sub(r'-{5,}', ...)`
leaves them alone). -/
def normRun (run : Nat) : List Char :=
  if 5 ≤ run then sep13 else List.replicate run '-'

/-- Accumulator loop for `re.sub(r'-{5,}', '-------------', content)`:
`run` counts the dashes of the current (still open) maximal dash run. -/
def normAux : List Char → Nat → List Char
  | [], run => normRun run
  | c :: cs, run =>
    if c = '-' then normAux cs (run + 1)
    else normRun run ++ c :: normAux cs 0

/-- Embedding of line 34: normalize every maximal run of 5-or-more dashes
to the canonical 13-dash separator. -/
def norm (l : List Char) : List Char := normAux l 0

/-- Fuelled loop for `str.split` on the 13-dash separator; each step
consumes at least one character, so `fuel = length` suffices and the
fuel-exhausted branch is unreachable. -/
def splitGo : Nat → List Char → List Char → List (List Char)
  | _, acc, [] => [acc.reverse]
  | 0, acc, l => [acc.reverse ++ l]
  | fuel + 1, acc, c :: cs =>
    if sep13.isPrefixOf (c :: cs) then acc.reverse :: splitGo fuel [] (List.drop 13 (c :: cs))
    else splitGo fuel (c :: acc) cs

/-- Python `content.split('-------------')`. -/
def split13 (l : List Char) : List (List Char) := splitGo l.length [] l

/-- Embedding of lines 35-36: per split piece, strip and split into lines
(line 35), then keep only batches with at least one line, and within a
batch keep only lines that strip to something non-blank (line 36). -/
def post_split (pieces : List (List Char)) : List (List (List Char)) :=
  let batches := pieces.map (fun piece => splitlines (pystrip piece))
  (batches.filter (fun b => !b.isEmpty)).map (fun batch =>
    batch.filterMap (fun link =>
      let s := pystrip link
      if s.isEmpty then none else some s))

/-- Embedding of `read_batches_from_links_file` on the file's content
(the `FileNotFoundError` branch, which yields `[]`, is not modelled since
every claim concerns a readable file). -/
def read_batches_content (content : List Char) : List (List (List Char)) :=
  post_split (split13 (norm content))

/-! ## `urllib.parse` model (used at lines 53 and 148-153)

Modelled from Python's `urllib.parse.urlsplit`/`urlparse`: tab, CR and LF
are removed up front (CPython's `_UNSAFE_URL_BYTES_TO_REMOVE`), then an
optional `scheme:` is stripped, then a `//netloc`, then the fragment and
the query.  Percent-decoding inside `parse_qs` and the `;params` split of
`urlparse` are omitted: no input this script builds uses them. -/

/-- Characters allowed in a URL scheme (`scheme_chars` in CPython). -/
def isSchemeChar (c : Char) : Bool :=
  c.isAlpha || c.isDigit || c == '+' || c == '-' || c == '.'

/-- CPython removes tab, CR and LF from a URL before splitting it. -/
def removeUnsafe (l : List Char) : List Char :=
  l.filter (fun c => !(c == '\t' || c == '\r' || c == '\n'))

/-- Strip a leading `scheme:` when the prefix before the first colon is a
well-formed scheme (nonempty, starts with a letter, scheme chars only). -/
def splitScheme (l : List Char) : List Char :=
  let pre := l.takeWhile (fun c => c ≠ ':')
  if decide (pre.length < l.length) && !pre.isEmpty && pre.all isSchemeChar &&
      (pre.headD ' ').isAlpha then
    l.drop (pre.length + 1)
  else l

/-- Strip a leading `//netloc` (CPython tests `url[:2] == '//'`), the
netloc ending at the first of `/`, `?`, `#`. -/
def splitNetloc (l : List Char) : List Char :=
  if l.take 2 = ['/', '/'] then
    (l.drop 2).drop (((l.drop 2).takeWhile (fun c => !(c == '/' || c == '?' || c == '#'))).length)
  else l

/-- Path and query components of a parsed URL. -/
structure UrlParts where
  path : List Char
  query : List Char
deriving DecidableEq

/-- Model of `urllib.parse.urlparse`, returning the two components the
script reads.  The fragment is cut at the first `#`, then the query starts
after the first `?` of what remains. -/
def urlparse (url : List Char) : UrlParts :=
  let l := splitNetloc (splitScheme (removeUnsafe url))
  let nofrag := l.takeWhile (fun c => c ≠ '#')
  let path := nofrag.takeWhile (fun c => c ≠ '?')
  ⟨path, nofrag.drop (path.length + 1)⟩

/-- Model of `parse_qs(query)['v'][0]` guarded by `'v' in parse_qs(query)`:
the first `&`-separated field of the form `v=<nonempty>` (with Python's
defaults, fields without `=` and fields with an empty value are dropped). -/
def parse_qs_v (query : List Char) : Option (List Char) :=
  (splitOnChar '&' query).findSome? (fun field =>
    if field = [] then none
    else
      let name := field.takeWhile (fun c => c ≠ '=')
      if name.length = field.length then none
      else
        let value := field.drop (name.length + 1)
        if name = ['v'] ∧ value ≠ [] then some value else none)

/-! ## Video-ID extraction and validation (`process_video`, lines 146-160) -/

/-- Python `str.lstrip('/')`. -/
def lstripSlash (l : List Char) : List Char := l.dropWhile (fun c => c == '/')

/-- Embedding of lines 148-153: when the URL contains `youtu.be`, the ID
is the parsed path with leading slashes stripped; otherwise it is the
first `v` query parameter, when present. -/
def extract_video_id (url : List Char) : Option (List Char) :=
  if containsSub "youtu.be".toList url then
    some (lstripSlash (urlparse url).path)
  else
    parse_qs_v (urlparse url).query

/-- Character class `[a-zA-Z0-9_-]` of the validation regex. -/
def isIdChar (c : Char) : Bool := c.isAlpha || c.isDigit || c == '_' || c == '-'

/-- Embedding of `re.match(r'^[a-zA-Z0-9_-]{11}$', s)`: eleven class
characters, where Python's `$` also accepts one trailing newline. -/
def matches_id_pattern (s : List Char) : Bool :=
  (s.length == 11 && s.all isIdChar) ||
  (s.length == 12 && (s.take 11).all isIdChar && s.getLast? == some '\n')

/-! ## Transcript provider model and `get_transcript_with_fallback` -/

/-- One caption track of a video, as listed by the transcript provider:
its language code, whether it is auto-generated, and the `text` fields of
its segments (the dictionaries `transcript.fetch()` returns). -/
structure Transcript where
  language_code : List Char
  is_generated : Bool
  segments : List (List Char)
deriving DecidableEq

/-- Failure of `YouTubeTranscriptApi.list_transcripts` (line 92): the
provider reports transcripts disabled, or that none exist. -/
inductive ListingError where
  | transcriptsDisabled : ListingError
  | noTranscriptFound : ListingError
deriving DecidableEq

/-- Errors `get_transcript_with_fallback` can raise to its caller: the
re-raised listing error (line 96), or the `NoTranscriptFound` built at
line 125 carrying the language codes that were available. -/
inductive FetchError where
  | listingFailed : ListingError → FetchError
  | noTranscriptFound : List Char → List (List Char) → FetchError
deriving DecidableEq

/-- Model of `TranscriptList.find_manually_created_transcript`: first
language code that has a manually created track wins. -/
def find_manually_created_transcript (ts : List Transcript) (langs : List (List Char)) :
    Option Transcript :=
  langs.findSome? (fun lang => ts.find? (fun t => !t.is_generated && t.language_code == lang))

/-- Model of `TranscriptList.find_generated_transcript`. -/
def find_generated_transcript (ts : List Transcript) (langs : List (List Char)) :
    Option Transcript :=
  langs.findSome? (fun lang => ts.find? (fun t => t.is_generated && t.language_code == lang))

/-- Model of `TranscriptList.find_transcript`: per language code, a
manually created track is preferred over a generated one. -/
def find_transcript (ts : List Transcript) (langs : List (List Char)) : Option Transcript :=
  langs.findSome? (fun lang =>
    match ts.find? (fun t => !t.is_generated && t.language_code == lang) with
    | some t => some t
    | none => ts.find? (fun t => t.is_generated && t.language_code == lang))

/-- Embedding of `"\n".join([t['text'] for t in transcript.fetch()])`. -/
def fetch_transcript_text (t : Transcript) : List Char :=
  List.intercalate ['\n'] t.segments

/-! ## `translate_with_chunking` (lines 69-80) -/

/-- Fuelled chunking loop for `for i in range(0, len(text), chunk_size)`
with slices `text[i:i+chunk_size]`; each step consumes at least one
character when `size > 0`, so `fuel = length` suffices.  (With
`chunk_size = 0` Python's `range` raises `ValueError`; all claims assume a
positive chunk size.) -/
def chunkGo : Nat → Nat → List Char → List (List Char)
  | _, _, [] => []
  | 0, _, _ :: _ => []
  | fuel + 1, size, c :: cs =>
    List.take size (c :: cs) :: chunkGo fuel size (List.drop size (c :: cs))

/-- The successive chunks `text[i:i+size]` for `i = 0, size, 2*size, ...`. -/
def chunkText (size : Nat) (text : List Char) : List (List Char) :=
  chunkGo text.length size text

/-- The list `translated_chunks` the loop at lines 71-79 builds: per chunk,
the translation service's answer, or — when the call raised, modelled by
`none` — the original chunk (the `except` branch at lines 77-79). -/
def translated_chunks (tr : List Char → Option (List Char)) (text : List Char)
    (chunk_size : Nat) : List (List Char) :=
  (chunkText chunk_size text).map (fun chunk =>
    match tr chunk with
    | some translated => translated
    | none => chunk)

/-- Embedding of `translate_with_chunking`: build `translated_chunks`,
then `"\n".join(...)` (line 80). -/
def translate_with_chunking (tr : List Char → Option (List Char)) (text : List Char)
    (chunk_size : Nat) : List Char :=
  List.intercalate ['\n'] (translated_chunks tr text chunk_size)

/-! ## `get_transcript_with_fallback` (lines 83-125) -/

/-- Embedding of `get_transcript_with_fallback`.  The provider's listing
for the video is passed as an `Except`; a listing failure is re-raised
unchanged (lines 93-96).  Then the three strategies run in order: manual
Marathi, generated Marathi, any English transcript translated to Marathi
with the default chunk size 4500; if all three miss, the error carries the
available language codes (line 125). -/
def get_transcript_with_fallback (tr : List Char → Option (List Char))
    (listing : Except ListingError (List Transcript)) (video_id : List Char) :
    Except FetchError (List Char) :=
  match listing with
  | .error e => .error (.listingFailed e)
  | .ok transcript_list =>
    match find_manually_created_transcript transcript_list ["mr".toList] with
    | some t => .ok (fetch_transcript_text t)
    | none =>
      match find_generated_transcript transcript_list ["mr".toList] with
      | some t => .ok (fetch_transcript_text t)
      | none =>
        match find_transcript transcript_list ["en".toList, "en-US".toList, "en-GB".toList] with
        | some t => .ok (translate_with_chunking tr (fetch_transcript_text t) 4500)
        | none =>
          .error (.noTranscriptFound video_id (transcript_list.map (fun t => t.language_code)))

/-! ## Title, prompt, filename, and `process_video` (lines 60-67, 128-178) -/

/-- Embedding of `fetch_video_title`: the provider's answer, or the video
ID itself when the lookup raised (lines 65-67). -/
def fetch_video_title (fetched : Option (List Char)) (video_id : List Char) : List Char :=
  match fetched with
  | some title => title
  | none => video_id

/-- The output file name built at line 164: `f"{safe_title}_{video_id}.txt"`. -/
def make_filename (title video_id : List Char) : List Char :=
  sanitize_filename title ++ ['_'] ++ video_id ++ ".txt".toList

/-- Embedding of `process_caption_text`: append the prompt after a blank
line, or nothing when the prompt is empty. -/
def process_caption_text (text prompt : List Char) : List Char :=
  if prompt = [] then text else text ++ ['\n', '\n'] ++ prompt

/-- The external world a run observes, keyed by video ID (title lookup and
transcript listing), plus the shared translation client and the playlist
provider keyed by playlist URL.  A `none`/`.error` value models the
corresponding service call raising. -/
structure World where
  title_of : List Char → Option (List Char)
  listing_of : List Char → Except ListingError (List Transcript)
  translate_chunk : List Char → Option (List Char)
  playlist_of : List Char → Except Unit (List (List Char))

/-- Result of `process_video` for one URL: the invalid-reference early
return (lines 155-160), the caught no-captions failure (lines 171-175,
no file written), or a saved file with its name and content. -/
inductive Outcome where
  | invalidUrl : Outcome
  | noCaptions : List Char → FetchError → Outcome
  | saved : List Char → List Char → Outcome
deriving DecidableEq

/-- Embedding of `process_video`: extract and validate the video ID, fetch
the title (falling back to the ID), build the filename, then fetch the
transcript; every failure is caught and becomes an `Outcome`, never an
exception to the caller. -/
def process_video (w : World) (video_url prompt : List Char) : Outcome :=
  match extract_video_id video_url with
  | none => .invalidUrl
  | some video_id =>
    if video_id.isEmpty || !matches_id_pattern video_id then .invalidUrl
    else
      let title := fetch_video_title (w.title_of video_id) video_id
      let filename := make_filename title video_id
      match get_transcript_with_fallback w.translate_chunk (w.listing_of video_id) video_id with
      | .ok text => .saved filename (process_caption_text text prompt)
      | .error e => .noCaptions video_id e

/-- File written by an outcome, if any: only `saved` produces one. -/
def saved_file? : Outcome → Option (List Char × List Char)
  | .saved filename text => some (filename, text)
  | _ => none

/-- Sequential processing of a sub-batch: one outcome per video, in order
(the `for video_url in sub_batch` loop at lines 211-212). -/
def process_videos (w : World) (videos : List (List Char)) (prompt : List Char) : List Outcome :=
  videos.map (fun v => process_video w v prompt)

/-! ## `fetch_video_ids_from_playlist` (lines 45-58) and batch expansion -/

/-- Embedding of `fetch_video_ids_from_playlist`: any provider exception
yields `[]` (lines 56-58), an empty listing yields `[]` (lines 50-52), and
otherwise each listed URL contributes its `v` query parameter when it has
one (line 53). -/
def fetch_video_ids_from_playlist (listing : Except Unit (List (List Char))) :
    List (List Char) :=
  match listing with
  | .error _ => []
  | .ok video_urls =>
    if video_urls.isEmpty then []
    else video_urls.filterMap (fun url => parse_qs_v (urlparse url).query)

/-- Embedding of the expansion loop at lines 197-202: playlist links are
replaced in place by their video IDs, other links kept as is. -/
def expand_batch (w : World) (batch : List (List Char)) : List (List Char) :=
  (batch.map (fun link =>
    if containsSub "playlist?list=".toList link then
      fetch_video_ids_from_playlist (w.playlist_of link)
    else [link])).flatten

/-! ## Chunking lemmas -/

theorem chunkGo_flatten (size : Nat) (hs : 0 < size) :
    ∀ (fuel : Nat) (l : List Char), l.length ≤ fuel → (chunkGo fuel size l).flatten = l := by
  intro fuel
  induction fuel with
  | zero =>
    intro l hl
    have : l = [] := by
      cases l with
      | nil => rfl
      | cons c cs => simp at hl
    subst this
    rfl
  | succ f ih =>
    intro l hl
    cases l with
    | nil => rfl
    | cons c cs =>
      have hdrop : (List.drop size (c :: cs)).length ≤ f := by
        simp only [List.length_drop, List.length_cons]
        simp only [List.length_cons] at hl
        omega
      simp only [chunkGo, List.flatten_cons, ih _ hdrop, List.take_append_drop]

theorem chunkGo_length (size : Nat) (hs : 0 < size) :
    ∀ (fuel : Nat) (l : List Char), l.length ≤ fuel →
      (chunkGo fuel size l).length = (l.length + size - 1) / size := by
  intro fuel
  induction fuel with
  | zero =>
    intro l hl
    have hnil : l = [] := by
      cases l with
      | nil => rfl
      | cons c cs => simp at hl
    subst hnil
    simp only [chunkGo, List.length_nil, Nat.zero_add, List.length]
    exact (Nat.div_eq_of_lt (by omega)).symm
  | succ f ih =>
    intro l hl
    cases l with
    | nil =>
      simp only [chunkGo, List.length_nil, Nat.zero_add, List.length]
      exact (Nat.div_eq_of_lt (by omega)).symm
    | cons c cs =>
      have hdrop : (List.drop size (c :: cs)).length ≤ f := by
        simp only [List.length_drop, List.length_cons]
        simp only [List.length_cons] at hl
        omega
      simp only [chunkGo, List.length_cons, ih _ hdrop, List.length_drop]
      rcases Nat.lt_or_ge (cs.length + 1) size with hlt | hge
      · have h1 : cs.length + 1 - size = 0 := by omega
        rw [h1]
        have h2 : (0 + size - 1) / size = 0 := Nat.div_eq_of_lt (by omega)
        have h3 : (cs.length + 1 + size - 1) / size = 1 := by
          have hlow : cs.length + 1 + size - 1 = cs.length + size := by omega
          rw [hlow, Nat.add_div_right _ hs]
          have : cs.length / size = 0 := Nat.div_eq_of_lt (by omega)
          omega
        rw [h2, h3]
      · have h1 : cs.length + 1 - size + size - 1 = cs.length := by omega
        have h2 : cs.length + 1 + size - 1 = cs.length + size := by omega
        rw [h1, h2, Nat.add_div_right _ hs]

theorem chunkGo_chunk_le (size : Nat) :
    ∀ (fuel : Nat) (l : List Char), ∀ ch ∈ chunkGo fuel size l, ch.length ≤ size := by
  intro fuel
  induction fuel with
  | zero =>
    intro l ch hch
    cases l with
    | nil => simp [chunkGo] at hch
    | cons c cs => simp [chunkGo] at hch
  | succ f ih =>
    intro l ch hch
    cases l with
    | nil => simp [chunkGo] at hch
    | cons c cs =>
      simp only [chunkGo, List.mem_cons] at hch
      rcases hch with h | h
      · subst h
        simp [List.length_take]
      · exact ih _ ch h

/-- C3: for text of length `L` and chunk size `C > 0` the translator forms
exactly `ceil(L/C) = (L + C - 1) / C` contiguous chunks of at most `C`
characters whose concatenation is the input, translates them in input
order, and joins the translations with newlines; empty input yields empty
output. -/
theorem chunking_splits_and_joins (f : List Char → List Char) (text : List Char)
    (C : Nat) (hC : 0 < C) :
    (chunkText C text).length = (text.length + C - 1) / C ∧
    (∀ ch ∈ chunkText C text, ch.length ≤ C) ∧
    (chunkText C text).flatten = text ∧
    translate_with_chunking (fun c => some (f c)) text C =
      List.intercalate ['\n'] ((chunkText C text).map f) ∧
    (text = [] → translate_with_chunking (fun c => some (f c)) text C = []) := by
  refine ⟨chunkGo_length C hC text.length text (Nat.le_refl _),
    fun ch hch => chunkGo_chunk_le C text.length text ch hch,
    chunkGo_flatten C hC text.length text (Nat.le_refl _), rfl, ?_⟩
  intro h
  subst h
  rfl

theorem chunking_splits_and_joins_witness :
    (chunkText 3 "abcdefgh".toList).flatten = "abcdefgh".toList ∧
    (chunkText 3 "abcdefgh".toList).length = ("abcdefgh".toList.length + 3 - 1) / 3 :=
  ⟨(chunking_splits_and_joins (fun c => c ++ c) "abcdefgh".toList 3 (by decide)).2.2.1,
   (chunking_splits_and_joins (fun c => c ++ c) "abcdefgh".toList 3 (by decide)).1⟩

/-- C4: a failed chunk translation (`tr chunk = none`) substitutes the
original chunk text at that chunk's position and the loop continues: the
output list always has one entry per chunk, successful chunks contribute
their translations, and the joined result is built from that list. -/
theorem chunk_failure_substitutes_original (tr : List Char → Option (List Char))
    (text : List Char) (C : Nat) (hC : 0 < C) :
    translate_with_chunking tr text C = List.intercalate ['\n'] (translated_chunks tr text C) ∧
    (translated_chunks tr text C).length = (chunkText C text).length ∧
    ∀ (i : Nat) (hi : i < (chunkText C text).length) (ho : i < (translated_chunks tr text C).length),
      (tr ((chunkText C text).get ⟨i, hi⟩) = none →
        (translated_chunks tr text C).get ⟨i, ho⟩ = (chunkText C text).get ⟨i, hi⟩) ∧
      (∀ t, tr ((chunkText C text).get ⟨i, hi⟩) = some t →
        (translated_chunks tr text C).get ⟨i, ho⟩ = t) := by
  refine ⟨rfl, List.length_map _ _, ?_⟩
  intro i hi ho
  constructor
  · intro hnone
    simp only [List.get_eq_getElem] at hnone
    simp only [translated_chunks, List.get_eq_getElem, List.getElem_map, hnone]
  · intro t hsome
    simp only [List.get_eq_getElem] at hsome
    simp only [translated_chunks, List.get_eq_getElem, List.getElem_map, hsome]

theorem chunk_failure_substitutes_original_witness :
    (translated_chunks (fun ch => if ch = "abc".toList then none else some (ch ++ ch))
      "abcdefgh".toList 3).length = (chunkText 3 "abcdefgh".toList).length :=
  (chunk_failure_substitutes_original
    (fun ch => if ch = "abc".toList then none else some (ch ++ ch))
    "abcdefgh".toList 3 (by decide)).2.1

/-! ## Filename sanitization lemmas -/

theorem invalid_char_not_idChar {c : Char} (h : c ∈ invalidFilenameChars) :
    isIdChar c = false := by
  simp only [invalidFilenameChars, List.mem_cons, List.not_mem_nil, or_false] at h
  rcases h with rfl | rfl | rfl | rfl | rfl | rfl | rfl | rfl | rfl <;> decide

theorem id_pattern_chars {v : List Char} (hv : matches_id_pattern v = true) :
    ∀ c ∈ v, isIdChar c = true ∨ c = '\n' := by
  simp only [matches_id_pattern, Bool.or_eq_true, Bool.and_eq_true, beq_iff_eq,
    List.all_eq_true] at hv
  rcases hv with ⟨_, hall⟩ | ⟨⟨hlen, hall⟩, hlast⟩
  · exact fun c hc => Or.inl (hall c hc)
  · intro c hc
    have hsplit : v = v.take 11 ++ v.drop 11 := (List.take_append_drop 11 v).symm
    rw [hsplit] at hc
    rcases List.mem_append.mp hc with h | h
    · exact Or.inl (hall c h)
    · have hlen1 : (v.drop 11).length = 1 := by
        rw [List.length_drop, hlen]
      obtain ⟨x, hx⟩ := List.length_eq_one.mp hlen1
      rw [hx] at hsplit
      have : v.getLast? = some x := by
        rw [hsplit]
        exact List.getLast?_concat _
      rw [hlast] at this
      rw [hx] at h
      rcases List.mem_singleton.mp h with rfl
      exact Or.inr (Option.some.inj this).symm

theorem id_pattern_chars_not_invalid {v : List Char} (hv : matches_id_pattern v = true) :
    ∀ c ∈ v, ¬ c ∈ invalidFilenameChars := by
  intro c hc hmem
  rcases id_pattern_chars hv c hc with h | rfl
  · rw [invalid_char_not_idChar hmem] at h
    exact Bool.false_ne_true h
  · revert hmem
    decide

theorem not_contains_of_not_mem {c : Char} {l : List Char} (h : ¬ c ∈ l) :
    (!l.contains c) = true := by
  rw [Bool.not_eq_true']
  rcases hb : l.contains c
  · rfl
  · exact absurd (List.elem_iff.mp hb) h

theorem sanitize_filename_no_invalid (name : List Char) :
    ∀ c ∈ sanitize_filename name, ¬ c ∈ invalidFilenameChars := by
  intro c hc hmem
  have hkeep := List.of_mem_filter hc
  rw [Bool.not_eq_true'] at hkeep
  have helem : List.elem c invalidFilenameChars = false := hkeep
  rw [List.elem_iff.mpr hmem] at helem
  exact Bool.noConfusion helem

theorem make_filename_no_invalid {title v : List Char} (hv : matches_id_pattern v = true) :
    ∀ c ∈ make_filename title v, ¬ c ∈ invalidFilenameChars := by
  intro c hc
  simp only [make_filename, List.append_assoc, List.mem_append] at hc
  rcases hc with h | h | h | h
  · exact sanitize_filename_no_invalid title c h
  · rcases List.mem_singleton.mp h with rfl
    decide
  · exact id_pattern_chars_not_invalid hv c h
  · have hall : ∀ x ∈ ".txt".toList, ¬ x ∈ invalidFilenameChars := by decide
    exact hall c h

/-- C5: sanitization removes exactly the denylisted characters (keeping
the rest, with multiplicity, in order), the example `A:B/C?` sanitizes to
`ABC`, the saved file name is `<sanitized-title>_<video-id>.txt`, and a
filename built for a valid video ID contains no denylisted character,
whatever the title was. -/
theorem filenames_never_contain_denylist (w : World) (title video_id url prompt : List Char) :
    sanitize_filename "A:B/C?".toList = "ABC".toList ∧
    (sanitize_filename title).Sublist title ∧
    (∀ c, ¬ c ∈ invalidFilenameChars →
      List.count c (sanitize_filename title) = List.count c title) ∧
    (∀ c, c ∈ invalidFilenameChars → List.count c (sanitize_filename title) = 0) ∧
    make_filename title video_id = sanitize_filename title ++ ['_'] ++ video_id ++ ".txt".toList ∧
    (matches_id_pattern video_id = true →
      (make_filename title video_id).filter (fun c => invalidFilenameChars.contains c) = []) ∧
    (∀ fn text, process_video w url prompt = .saved fn text →
      ∃ vid, extract_video_id url = some vid ∧ matches_id_pattern vid = true ∧
        fn = make_filename (fetch_video_title (w.title_of vid) vid) vid ∧
        fn.filter (fun c => invalidFilenameChars.contains c) = []) := by
  refine ⟨by decide, List.filter_sublist _, ?_, ?_, rfl, ?_, ?_⟩
  · intro c hc
    exact List.count_filter (by simp [List.elem_iff, hc])
  · intro c hc
    rw [List.count_eq_zero]
    intro hmem
    exact sanitize_filename_no_invalid title c hmem hc
  · intro hv
    rw [List.filter_eq_nil_iff]
    intro c hc
    rw [Bool.not_eq_true]
    rcases hb : invalidFilenameChars.contains c
    · rfl
    · exact absurd (List.elem_iff.mp hb) (make_filename_no_invalid hv c hc)
  · intro fn text hsaved
    unfold process_video at hsaved
    rcases hext : extract_video_id url with _ | vid
    · rw [hext] at hsaved
      exact Outcome.noConfusion hsaved
    · rw [hext] at hsaved
      simp only at hsaved
      by_cases hcond : (vid.isEmpty || !matches_id_pattern vid) = true
      · rw [if_pos hcond] at hsaved
        exact Outcome.noConfusion hsaved
      · rw [if_neg hcond] at hsaved
        have hv : matches_id_pattern vid = true := by
          simp only [Bool.or_eq_true, Bool.not_eq_true'] at hcond
          cases hmt : matches_id_pattern vid with
          | true => rfl
          | false => exact absurd (Or.inr hmt) hcond
        refine ⟨vid, rfl, hv, ?_⟩
        rcases hget : get_transcript_with_fallback w.translate_chunk (w.listing_of vid) vid with e | text
        · rw [hget] at hsaved
          exact Outcome.noConfusion hsaved
        · rw [hget] at hsaved
          injection hsaved with h1 h2
          subst h1
          refine ⟨rfl, ?_⟩
          rw [List.filter_eq_nil_iff]
          intro c hc
          rw [Bool.not_eq_true]
          rcases hb : invalidFilenameChars.contains c
          · rfl
          · exact absurd (List.elem_iff.mp hb) (make_filename_no_invalid hv c hc)

theorem filenames_never_contain_denylist_witness :
    (make_filename "My: Video?".toList "abcdefghijk".toList).filter
      (fun c => invalidFilenameChars.contains c) = [] :=
  ((filenames_never_contain_denylist
      ⟨fun _ => none, fun _ => Except.error ListingError.transcriptsDisabled,
       fun _ => none, fun _ => Except.error ()⟩
      "My: Video?".toList "abcdefghijk".toList [] []).2.2.2.2.2.1) (by decide)

/-! ## Fallback-policy lemmas -/

theorem findSome?_singleton {α β : Type} (f : α → Option β) (x : α) :
    List.findSome? f [x] = f x := by
  cases h : f x <;> simp [List.findSome?_cons, h]

theorem find_manual_of_avail {ts : List Transcript} {lang : List Char}
    (h : ∃ t ∈ ts, t.is_generated = false ∧ t.language_code = lang) :
    ∃ t, find_manually_created_transcript ts [lang] = some t ∧ t ∈ ts ∧
      t.is_generated = false ∧ t.language_code = lang := by
  obtain ⟨t0, ht0, hgen, hcode⟩ := h
  have hsome : (ts.find? (fun t => !t.is_generated && t.language_code == lang)).isSome := by
    rw [List.find?_isSome]
    exact ⟨t0, ht0, by simp [hgen, hcode]⟩
  obtain ⟨t1, ht1⟩ := Option.isSome_iff_exists.mp hsome
  have hpred := List.find?_some ht1
  simp only [Bool.and_eq_true, Bool.not_eq_true', beq_iff_eq] at hpred
  refine ⟨t1, ?_, List.mem_of_find?_eq_some ht1, hpred.1, hpred.2⟩
  rw [find_manually_created_transcript, findSome?_singleton, ht1]

theorem find_generated_of_avail {ts : List Transcript} {lang : List Char}
    (h : ∃ t ∈ ts, t.is_generated = true ∧ t.language_code = lang) :
    ∃ t, find_generated_transcript ts [lang] = some t ∧ t ∈ ts ∧
      t.is_generated = true ∧ t.language_code = lang := by
  obtain ⟨t0, ht0, hgen, hcode⟩ := h
  have hsome : (ts.find? (fun t => t.is_generated && t.language_code == lang)).isSome := by
    rw [List.find?_isSome]
    exact ⟨t0, ht0, by simp [hgen, hcode]⟩
  obtain ⟨t1, ht1⟩ := Option.isSome_iff_exists.mp hsome
  have hpred := List.find?_some ht1
  simp only [Bool.and_eq_true, beq_iff_eq] at hpred
  refine ⟨t1, ?_, List.mem_of_find?_eq_some ht1, hpred.1, hpred.2⟩
  rw [find_generated_transcript, findSome?_singleton, ht1]

theorem find_manual_none_of_no_manual {ts : List Transcript} {lang : List Char}
    (h : ∀ t ∈ ts, t.language_code = lang → t.is_generated = true) :
    find_manually_created_transcript ts [lang] = none := by
  rw [find_manually_created_transcript, findSome?_singleton, List.find?_eq_none]
  intro t ht hpred
  simp only [Bool.and_eq_true, Bool.not_eq_true', beq_iff_eq] at hpred
  rw [h t ht hpred.2] at hpred
  exact Bool.noConfusion hpred.1

theorem find_generated_none_of_no_mr {ts : List Transcript} {lang : List Char}
    (h : ∀ t ∈ ts, t.language_code ≠ lang) :
    find_generated_transcript ts [lang] = none := by
  rw [find_generated_transcript, findSome?_singleton, List.find?_eq_none]
  intro t ht hpred
  simp only [Bool.and_eq_true, beq_iff_eq] at hpred
  exact h t ht hpred.2

theorem find_transcript_of_avail {ts : List Transcript} {langs : List (List Char)}
    (h : ∃ t ∈ ts, t.language_code ∈ langs) :
    ∃ t, find_transcript ts langs = some t ∧ t ∈ ts ∧ t.language_code ∈ langs := by
  rcases hfind : find_transcript ts langs with _ | t1
  · exfalso
    rw [find_transcript, List.findSome?_eq_none] at hfind
    obtain ⟨t0, ht0, hlang⟩ := h
    have hstep := hfind t0.language_code hlang
    rcases hman : ts.find? (fun t => !t.is_generated && t.language_code == t0.language_code)
      with _ | u
    · rw [hman] at hstep
      simp only at hstep
      rw [List.find?_eq_none] at hman hstep
      cases hgen : t0.is_generated
      · exact absurd (by simp [hgen]) (hman t0 ht0)
      · exact absurd (by simp [hgen]) (hstep t0 ht0)
    · rw [hman] at hstep
      exact Option.noConfusion hstep
  · obtain ⟨lang, hlangmem, hstep⟩ := List.exists_of_findSome?_eq_some hfind
    rcases hman : ts.find? (fun t => !t.is_generated && t.language_code == lang) with _ | u
    · rw [hman] at hstep
      simp only at hstep
      have hpred := List.find?_some hstep
      simp only [Bool.and_eq_true, beq_iff_eq] at hpred
      exact ⟨t1, rfl, List.mem_of_find?_eq_some hstep, hpred.2 ▸ hlangmem⟩
    · rw [hman] at hstep
      simp only at hstep
      rcases Option.some.inj hstep with rfl
      have hpred := List.find?_some hman
      simp only [Bool.and_eq_true, Bool.not_eq_true', beq_iff_eq] at hpred
      exact ⟨u, rfl, List.mem_of_find?_eq_some hman, hpred.2 ▸ hlangmem⟩

theorem find_transcript_none_of_none_avail {ts : List Transcript} {langs : List (List Char)}
    (h : ∀ t ∈ ts, ¬ t.language_code ∈ langs) :
    find_transcript ts langs = none := by
  rw [find_transcript, List.findSome?_eq_none]
  intro lang hlang
  have h1 : ts.find? (fun t => !t.is_generated && t.language_code == lang) = none := by
    rw [List.find?_eq_none]
    intro t ht hpred
    simp only [Bool.and_eq_true, beq_iff_eq] at hpred
    exact h t ht (hpred.2 ▸ hlang)
  have h2 : ts.find? (fun t => t.is_generated && t.language_code == lang) = none := by
    rw [List.find?_eq_none]
    intro t ht hpred
    simp only [Bool.and_eq_true, beq_iff_eq] at hpred
    exact h t ht (hpred.2 ▸ hlang)
  rw [h1, h2]

/-- C1: with a successful listing, the three strategies are tried strictly
in order and the first available one determines the result: an available
manual Marathi transcript is always the one fetched; with no manual but an
available generated Marathi transcript, that one is fetched; and only when
no Marathi transcript of either kind exists is an available English
transcript (`en`/`en-US`/`en-GB`) fetched and routed through the chunked
translator. -/
theorem fallback_policy (tr : List Char → Option (List Char)) (ts : List Transcript)
    (vid : List Char) :
    ((∃ t ∈ ts, t.is_generated = false ∧ t.language_code = "mr".toList) →
      ∃ t ∈ ts, t.is_generated = false ∧ t.language_code = "mr".toList ∧
        get_transcript_with_fallback tr (.ok ts) vid = .ok (fetch_transcript_text t)) ∧
    ((∀ t ∈ ts, t.language_code = "mr".toList → t.is_generated = true) →
     (∃ t ∈ ts, t.is_generated = true ∧ t.language_code = "mr".toList) →
      ∃ t ∈ ts, t.is_generated = true ∧ t.language_code = "mr".toList ∧
        get_transcript_with_fallback tr (.ok ts) vid = .ok (fetch_transcript_text t)) ∧
    ((∀ t ∈ ts, t.language_code ≠ "mr".toList) →
     (∃ t ∈ ts, t.language_code ∈ ["en".toList, "en-US".toList, "en-GB".toList]) →
      ∃ t ∈ ts, t.language_code ∈ ["en".toList, "en-US".toList, "en-GB".toList] ∧
        get_transcript_with_fallback tr (.ok ts) vid =
          .ok (translate_with_chunking tr (fetch_transcript_text t) 4500)) := by
  refine ⟨?_, ?_, ?_⟩
  · intro h
    obtain ⟨t1, hfind, hmem, hgen, hcode⟩ := find_manual_of_avail h
    refine ⟨t1, hmem, hgen, hcode, ?_⟩
    rw [get_transcript_with_fallback, hfind]
  · intro hnoman h
    have hman : find_manually_created_transcript ts ["mr".toList] = none :=
      find_manual_none_of_no_manual hnoman
    obtain ⟨t1, hfind, hmem, hgen, hcode⟩ := find_generated_of_avail h
    refine ⟨t1, hmem, hgen, hcode, ?_⟩
    rw [get_transcript_with_fallback, hman, hfind]
  · intro hnomr h
    have hman : find_manually_created_transcript ts ["mr".toList] = none :=
      find_manual_none_of_no_manual (fun t ht hcode => absurd hcode (hnomr t ht))
    have hgen : find_generated_transcript ts ["mr".toList] = none :=
      find_generated_none_of_no_mr hnomr
    obtain ⟨t1, hfind, hmem, hlang⟩ := find_transcript_of_avail h
    refine ⟨t1, hmem, hlang, ?_⟩
    rw [get_transcript_with_fallback, hman, hgen, hfind]

theorem fallback_policy_witness :
    ∃ t ∈ [Transcript.mk "mr".toList false ["x".toList],
           Transcript.mk "mr".toList true ["y".toList]],
      t.is_generated = false ∧ t.language_code = "mr".toList ∧
      get_transcript_with_fallback (fun c => some c)
        (.ok [Transcript.mk "mr".toList false ["x".toList],
              Transcript.mk "mr".toList true ["y".toList]]) "abcdefghijk".toList =
        .ok (fetch_transcript_text t) :=
  (fallback_policy (fun c => some c)
    [Transcript.mk "mr".toList false ["x".toList],
     Transcript.mk "mr".toList true ["y".toList]] "abcdefghijk".toList).1
    ⟨Transcript.mk "mr".toList false ["x".toList], by simp, rfl, rfl⟩

/-! ## Failure containment at the per-video boundary -/

theorem id_pattern_ne_empty {vid : List Char} (hv : matches_id_pattern vid = true) :
    vid.isEmpty = false := by
  cases vid with
  | nil =>
    simp only [matches_id_pattern, Bool.or_eq_true, Bool.and_eq_true, beq_iff_eq] at hv
    rcases hv with ⟨h, _⟩ | ⟨⟨h, _⟩, _⟩ <;> simp at h
  | cons c cs => rfl

theorem process_video_of_fetch_error {w : World} {url vid prompt : List Char} {err : FetchError}
    (hext : extract_video_id url = some vid) (hv : matches_id_pattern vid = true)
    (herr : get_transcript_with_fallback w.translate_chunk (w.listing_of vid) vid = .error err) :
    process_video w url prompt = .noCaptions vid err := by
  rw [process_video, hext]
  simp only
  rw [if_neg (by simp [id_pattern_ne_empty hv, hv]), herr]

/-- C2: a failing listing is re-raised as a fetch error, an exhausted
fallback chain yields the no-transcript error carrying exactly the set of
available language codes (possibly empty), and either failure is contained
per video: the caller produces a no-captions outcome, writes no file, and
the batch loop still yields one outcome per video, each depending only on
its own URL. -/
theorem transcript_failure_contained (w : World) (tr : List Char → Option (List Char))
    (ts : List Transcript) (e : ListingError) (url prompt vid : List Char) (err : FetchError) :
    get_transcript_with_fallback tr (.error e) vid = .error (.listingFailed e) ∧
    ((∀ t ∈ ts, t.language_code ≠ "mr".toList) →
     (∀ t ∈ ts, ¬ t.language_code ∈ ["en".toList, "en-US".toList, "en-GB".toList]) →
      get_transcript_with_fallback tr (.ok ts) vid =
        .error (.noTranscriptFound vid (ts.map (fun t => t.language_code)))) ∧
    (extract_video_id url = some vid → matches_id_pattern vid = true →
     get_transcript_with_fallback w.translate_chunk (w.listing_of vid) vid = .error err →
      process_video w url prompt = .noCaptions vid err ∧
      saved_file? (process_video w url prompt) = none) ∧
    (∀ videos : List (List Char),
      (process_videos w videos prompt).length = videos.length ∧
      ∀ (i : Nat) (h1 : i < videos.length) (h2 : i < (process_videos w videos prompt).length),
        (process_videos w videos prompt).get ⟨i, h2⟩ =
          process_video w (videos.get ⟨i, h1⟩) prompt) := by
  refine ⟨rfl, ?_, ?_, ?_⟩
  · intro hnomr hnoen
    have hman : find_manually_created_transcript ts ["mr".toList] = none :=
      find_manual_none_of_no_manual (fun t ht hcode => absurd hcode (hnomr t ht))
    have hgen : find_generated_transcript ts ["mr".toList] = none :=
      find_generated_none_of_no_mr hnomr
    have hany : find_transcript ts ["en".toList, "en-US".toList, "en-GB".toList] = none :=
      find_transcript_none_of_none_avail hnoen
    rw [get_transcript_with_fallback, hman, hgen, hany]
  · intro hext hv herr
    have houtcome : process_video w url prompt = .noCaptions vid err :=
      process_video_of_fetch_error hext hv herr
    exact ⟨houtcome, by rw [houtcome]; rfl⟩
  · intro videos
    refine ⟨List.length_map _ _, ?_⟩
    intro i h1 h2
    simp only [process_videos, List.get_eq_getElem, List.getElem_map]

theorem transcript_failure_contained_witness :
    process_video
      ⟨fun _ => none, fun _ => Except.error ListingError.transcriptsDisabled,
       fun _ => none, fun _ => Except.error ()⟩
      "https://www.youtube.com/watch?v=abcdefghijk".toList [] =
      Outcome.noCaptions "abcdefghijk".toList
        (FetchError.listingFailed ListingError.transcriptsDisabled) :=
  ((transcript_failure_contained
      ⟨fun _ => none, fun _ => Except.error ListingError.transcriptsDisabled,
       fun _ => none, fun _ => Except.error ()⟩
      (fun _ => none) [] ListingError.transcriptsDisabled
      "https://www.youtube.com/watch?v=abcdefghijk".toList [] "abcdefghijk".toList
      (FetchError.listingFailed ListingError.transcriptsDisabled)).2.2.1
    (by decide) (by decide) rfl).1

/-! ## Title fallback and playlist expansion -/

theorem sanitize_id {vid : List Char} (hv : matches_id_pattern vid = true) :
    sanitize_filename vid = vid :=
  List.filter_eq_self.mpr (fun c hc =>
    not_contains_of_not_mem (id_pattern_chars_not_invalid hv c hc))

/-- C10: a failed title lookup falls back to the video ID as title, so
the filename becomes `<video-id>_<video-id>.txt`, and processing is not
aborted: the outcome is still fully determined by transcript
availability, never the invalid-reference skip. -/
theorem title_fallback_uses_video_id (w : World) (url prompt vid t : List Char) :
    fetch_video_title none vid = vid ∧
    fetch_video_title (some t) vid = t ∧
    (extract_video_id url = some vid → matches_id_pattern vid = true →
     w.title_of vid = none →
      process_video w url prompt =
        (match get_transcript_with_fallback w.translate_chunk (w.listing_of vid) vid with
         | .ok text =>
            Outcome.saved (vid ++ ['_'] ++ vid ++ ".txt".toList) (process_caption_text text prompt)
         | .error e => Outcome.noCaptions vid e) ∧
      process_video w url prompt ≠ .invalidUrl) := by
  refine ⟨rfl, rfl, ?_⟩
  intro hext hv htitle
  have hsan : sanitize_filename vid = vid := sanitize_id hv
  have hmain : process_video w url prompt =
      (match get_transcript_with_fallback w.translate_chunk (w.listing_of vid) vid with
       | .ok text =>
          Outcome.saved (vid ++ ['_'] ++ vid ++ ".txt".toList) (process_caption_text text prompt)
       | .error e => Outcome.noCaptions vid e) := by
    rw [process_video, hext]
    simp only
    rw [if_neg (by simp [id_pattern_ne_empty hv, hv]), htitle]
    rcases hget : get_transcript_with_fallback w.translate_chunk (w.listing_of vid) vid
      with e | text
    · simp [fetch_video_title, make_filename, hsan]
    · simp [fetch_video_title, make_filename, hsan]
  refine ⟨hmain, ?_⟩
  intro hbad
  rw [hmain] at hbad
  rcases hget : get_transcript_with_fallback w.translate_chunk (w.listing_of vid) vid
    with e | text <;> rw [hget] at hbad <;> exact Outcome.noConfusion hbad

theorem title_fallback_uses_video_id_witness :
    process_video
      ⟨fun _ => none,
       fun _ => Except.ok [Transcript.mk "en".toList false ["hello".toList]],
       fun c => some c, fun _ => Except.error ()⟩
      "https://youtu.be/abcdefghijk".toList [] ≠ Outcome.invalidUrl :=
  ((title_fallback_uses_video_id
      ⟨fun _ => none,
       fun _ => Except.ok [Transcript.mk "en".toList false ["hello".toList]],
       fun c => some c, fun _ => Except.error ()⟩
      "https://youtu.be/abcdefghijk".toList [] "abcdefghijk".toList []).2.2
    (by decide) (by decide) rfl).2

/-- C8: playlist expansion never raises: a provider failure or an empty
listing contributes the empty sequence (so such a playlist link adds zero
entries to the expanded batch, which otherwise keeps its order), and a
successful listing contributes, in playlist order, the `v` parameter of
each listed URL that has one. -/
theorem playlist_expansion_never_raises (w : World) (urls : List (List Char))
    (A B : List (List Char)) (link : List Char) :
    fetch_video_ids_from_playlist (.error ()) = [] ∧
    fetch_video_ids_from_playlist (.ok []) = [] ∧
    fetch_video_ids_from_playlist (.ok urls) =
      urls.filterMap (fun url => parse_qs_v (urlparse url).query) ∧
    (containsSub "playlist?list=".toList link = true →
     fetch_video_ids_from_playlist (w.playlist_of link) = [] →
      expand_batch w (A ++ link :: B) = expand_batch w A ++ expand_batch w B) := by
  refine ⟨rfl, rfl, ?_, ?_⟩
  · cases urls with
    | nil => rfl
    | cons u us => rfl
  · intro hmark hfetch
    simp only [expand_batch, List.map_append, List.map_cons, List.flatten_append,
      List.flatten_cons, hmark, if_pos, hfetch, List.nil_append]

theorem playlist_expansion_never_raises_witness :
    expand_batch
      ⟨fun _ => none, fun _ => Except.error ListingError.transcriptsDisabled,
       fun _ => none, fun _ => Except.error ()⟩
      (["https://www.youtube.com/watch?v=aaaaaaaaaaa".toList] ++
        "https://www.youtube.com/playlist?list=PL123".toList ::
        ["https://www.youtube.com/watch?v=bbbbbbbbbbb".toList]) =
      expand_batch
        ⟨fun _ => none, fun _ => Except.error ListingError.transcriptsDisabled,
         fun _ => none, fun _ => Except.error ()⟩
        ["https://www.youtube.com/watch?v=aaaaaaaaaaa".toList] ++
      expand_batch
        ⟨fun _ => none, fun _ => Except.error ListingError.transcriptsDisabled,
         fun _ => none, fun _ => Except.error ()⟩
        ["https://www.youtube.com/watch?v=bbbbbbbbbbb".toList] :=
  ((playlist_expansion_never_raises
      ⟨fun _ => none, fun _ => Except.error ListingError.transcriptsDisabled,
       fun _ => none, fun _ => Except.error ()⟩
      [] ["https://www.youtube.com/watch?v=aaaaaaaaaaa".toList]
      ["https://www.youtube.com/watch?v=bbbbbbbbbbb".toList]
      "https://www.youtube.com/playlist?list=PL123".toList).2.2.2)
    (by decide) rfl

/-! ## URL-parser containment lemmas -/

theorem splitOnCharGo_subset (sep : Char) :
    ∀ (l acc piece : List Char), piece ∈ splitOnCharGo sep acc l →
      ∀ c ∈ piece, c ∈ acc ∨ c ∈ l := by
  intro l
  induction l with
  | nil =>
    intro acc piece hp c hc
    simp only [splitOnCharGo, List.mem_singleton] at hp
    subst hp
    exact Or.inl (List.mem_reverse.mp hc)
  | cons x xs ih =>
    intro acc piece hp c hc
    by_cases hx : (x == sep) = true
    · simp only [splitOnCharGo, hx, if_true, List.mem_cons] at hp
      rcases hp with rfl | hp
      · exact Or.inl (List.mem_reverse.mp hc)
      · rcases ih [] piece hp c hc with h | h
        · exact absurd h (List.not_mem_nil c)
        · exact Or.inr (List.mem_cons_of_mem x h)
    · rw [splitOnCharGo, if_neg hx] at hp
      rcases ih (x :: acc) piece hp c hc with h | h
      · rcases List.mem_cons.mp h with rfl | h
        · exact Or.inr (List.mem_cons_self c xs)
        · exact Or.inl h
      · exact Or.inr (List.mem_cons_of_mem x h)

theorem parse_qs_v_subset {q v : List Char} (h : parse_qs_v q = some v) :
    ∀ c ∈ v, c ∈ q := by
  intro c hc
  obtain ⟨field, hfield, hf⟩ := List.exists_of_findSome?_eq_some h
  simp only at hf
  split_ifs at hf with h1 h2 h3
  all_goals first
    | exact Option.noConfusion hf
    | (rcases Option.some.inj hf with rfl
       have hcf : c ∈ field := List.drop_subset _ _ hc
       rcases splitOnCharGo_subset '&' q [] field hfield c hcf with hac | hq
       · exact absurd hac (List.not_mem_nil c)
       · exact hq)

theorem splitScheme_subset (l : List Char) : ∀ c ∈ splitScheme l, c ∈ l := by
  intro c hc
  simp only [splitScheme] at hc
  split_ifs at hc
  · exact List.drop_subset _ _ hc
  · exact hc

theorem splitNetloc_subset (l : List Char) : ∀ c ∈ splitNetloc l, c ∈ l := by
  intro c hc
  unfold splitNetloc at hc
  split_ifs at hc
  · exact List.drop_subset _ _ (List.drop_subset _ _ hc)
  · exact hc

theorem urlparse_path_subset (url : List Char) :
    ∀ c ∈ (urlparse url).path, c ∈ removeUnsafe url := by
  intro c hc
  have hc2 : c ∈ splitNetloc (splitScheme (removeUnsafe url)) :=
    List.takeWhile_subset _ (List.takeWhile_subset _ hc)
  exact splitScheme_subset _ c (splitNetloc_subset _ c hc2)

theorem urlparse_query_subset (url : List Char) :
    ∀ c ∈ (urlparse url).query, c ∈ removeUnsafe url := by
  intro c hc
  have hc2 : c ∈ splitNetloc (splitScheme (removeUnsafe url)) :=
    List.takeWhile_subset _ (List.drop_subset _ _ hc)
  exact splitScheme_subset _ c (splitNetloc_subset _ c hc2)

theorem newline_not_mem_removeUnsafe (url : List Char) : ¬ '\n' ∈ removeUnsafe url := by
  intro hx
  have hpred := List.of_mem_filter hx
  simp at hpred

theorem extract_no_newline {url vid : List Char} (h : extract_video_id url = some vid) :
    ¬ '\n' ∈ vid := by
  intro hmem
  unfold extract_video_id at h
  split_ifs at h
  · rcases Option.some.inj h with rfl
    exact newline_not_mem_removeUnsafe url
      (urlparse_path_subset url '\n' (List.dropWhile_subset _ hmem))
  · exact newline_not_mem_removeUnsafe url
      (urlparse_query_subset url '\n' (parse_qs_v_subset h '\n' hmem))

theorem mem_of_getLast?_eq_some {x : Char} :
    ∀ {l : List Char}, l.getLast? = some x → x ∈ l := by
  intro l
  induction l with
  | nil => intro h; exact Option.noConfusion h
  | cons c cs ih =>
    intro h
    cases cs with
    | nil =>
      rcases Option.some.inj h with rfl
      exact List.mem_singleton_self c
    | cons d ds =>
      rw [List.getLast?_cons_cons] at h
      exact List.mem_cons_of_mem c (ih h)

theorem matches_eq_simple {vid : List Char} (hnl : ¬ '\n' ∈ vid) :
    matches_id_pattern vid = (vid.length == 11 && vid.all isIdChar) := by
  unfold matches_id_pattern
  cases hq : (vid.length == 12 && (vid.take 11).all isIdChar && vid.getLast? == some '\n')
  · rw [Bool.or_false]
  · exfalso
    simp only [Bool.and_eq_true, beq_iff_eq] at hq
    exact hnl (mem_of_getLast?_eq_some hq.2)

/-- C7: the video ID comes from the URL path (leading slashes stripped)
when the URL contains `youtu.be`, else from the `v` query parameter; when
no ID is obtained, or the ID is not exactly 11 characters from
`[A-Za-z0-9_-]`, the entry is classified invalid: no file is written and
the outcome is an ordinary return value, not an exception. -/
theorem invalid_reference_is_skipped (w : World) (url prompt : List Char) :
    (containsSub "youtu.be".toList url = true →
      extract_video_id url = some (lstripSlash (urlparse url).path)) ∧
    (containsSub "youtu.be".toList url = false →
      extract_video_id url = parse_qs_v (urlparse url).query) ∧
    (extract_video_id url = none →
      process_video w url prompt = .invalidUrl ∧
      saved_file? (process_video w url prompt) = none) ∧
    (∀ vid, extract_video_id url = some vid →
      ¬(vid.length = 11 ∧ ∀ c ∈ vid, isIdChar c = true) →
      process_video w url prompt = .invalidUrl ∧
      saved_file? (process_video w url prompt) = none) := by
  refine ⟨?_, ?_, ?_, ?_⟩
  · intro h
    rw [extract_video_id, if_pos h]
  · intro h
    rw [extract_video_id, if_neg (by rw [h]; exact Bool.false_ne_true)]
  · intro h
    have : process_video w url prompt = .invalidUrl := by
      rw [process_video, h]
    exact ⟨this, by rw [this]; rfl⟩
  · intro vid hext hbad
    have hfalse : matches_id_pattern vid = false := by
      rw [matches_eq_simple (extract_no_newline hext)]
      cases hb : (vid.length == 11 && vid.all isIdChar)
      · rfl
      · exfalso
        simp only [Bool.and_eq_true, beq_iff_eq, List.all_eq_true] at hb
        exact hbad hb
    have : process_video w url prompt = .invalidUrl := by
      rw [process_video, hext]
      simp only
      rw [if_pos (by rw [hfalse]; simp)]
    exact ⟨this, by rw [this]; rfl⟩

theorem invalid_reference_is_skipped_witness :
    process_video
      ⟨fun _ => none, fun _ => Except.error ListingError.transcriptsDisabled,
       fun _ => none, fun _ => Except.error ()⟩
      "notaurl".toList [] = Outcome.invalidUrl :=
  ((invalid_reference_is_skipped
      ⟨fun _ => none, fun _ => Except.error ListingError.transcriptsDisabled,
       fun _ => none, fun _ => Except.error ()⟩
      "notaurl".toList []).2.2.1 (by decide)).1

/-! ## Dash-run normalization lemmas -/

theorem normAux_replicate (B : List Char) (hB : B.head? ≠ some '-') :
    ∀ (k run : Nat), normAux (List.replicate k '-' ++ B) run = normRun (run + k) ++ normAux B 0 := by
  intro k
  induction k with
  | zero =>
    intro run
    simp only [List.replicate, List.nil_append, Nat.add_zero]
    cases B with
    | nil => simp [normAux, normRun]
    | cons c cs =>
      have hc : ¬ c = '-' := fun h => hB (by rw [h]; rfl)
      rw [normAux, if_neg hc]
      conv_rhs => rw [normAux, if_neg hc]
      simp [normRun, List.replicate]
  | succ k ih =>
    intro run
    rw [List.replicate_succ, List.cons_append, normAux, if_pos rfl, ih]
    have : run + 1 + k = run + (k + 1) := by omega
    rw [this]

theorem normAux_append (B : List Char) :
    ∀ (A : List Char), A ≠ [] → A.getLast? ≠ some '-' →
      ∀ run, normAux (A ++ B) run = normAux A run ++ norm B := by
  intro A
  induction A with
  | nil => intro h; exact absurd rfl h
  | cons c A' ih =>
    intro _ hlast run
    cases A' with
    | nil =>
      have hc : ¬ c = '-' := fun h => hlast (by rw [h]; rfl)
      rw [List.cons_append, List.nil_append, normAux, if_neg hc]
      conv_rhs => rw [normAux, if_neg hc]
      simp [normAux, normRun, List.replicate, norm]
    | cons d A'' =>
      have hlast' : (d :: A'').getLast? ≠ some '-' := by
        rwa [List.getLast?_cons_cons] at hlast
      by_cases hc : c = '-'
      · subst hc
        rw [List.cons_append, normAux, if_pos rfl]
        conv_rhs => rw [normAux, if_pos rfl]
        exact ih (List.cons_ne_nil d A'') hlast' (run + 1)
      · rw [List.cons_append, normAux, if_neg hc]
        conv_rhs => rw [normAux, if_neg hc]
        rw [ih (List.cons_ne_nil d A'') hlast' 0]
        simp [List.append_assoc, List.cons_append]

theorem isPrefixOf_append_self (l t : List Char) : l.isPrefixOf (l ++ t) = true := by
  rw [ List.isPrefixOf_iff_prefix]
  exact List.prefix_append l t

theorem replicate_five_isPrefixOf_of_takeWhile {l : List Char}
    (h : 5 ≤ (l.takeWhile (fun c => c == '-')).length) :
    (List.replicate 5 '-').isPrefixOf l = true := by
  rw [ List.isPrefixOf_iff_prefix, List.prefix_iff_eq_take]
  have hlen5 : (List.replicate 5 '-').length = 5 := by simp
  rw [hlen5]
  have hlen : 5 ≤ l.length :=
    le_trans h (List.length_le_of_sublist (List.takeWhile_sublist _))
  have htake : List.take 5 l = List.take 5 (l.takeWhile (fun c => c == '-')) := by
    conv_lhs => rw [← List.takeWhile_append_dropWhile (fun c => c == '-') l]
    exact List.take_append_of_le_length h
  rw [htake]
  symm
  rw [List.eq_replicate]
  refine ⟨by simp [List.length_take]; omega, ?_⟩
  intro b hb
  have hbtw : b ∈ l.takeWhile (fun c => c == '-') := List.take_sublist _ _ |>.subset hb
  have := List.mem_takeWhile_imp hbtw
  simpa using this

theorem leadRun_lt_of_no5 {l : List Char}
    (h : (List.replicate 5 '-').isPrefixOf l = false) :
    (l.takeWhile (fun c => c == '-')).length < 5 := by
  by_contra hge
  rw [replicate_five_isPrefixOf_of_takeWhile (by omega)] at h
  exact Bool.noConfusion h

theorem normAux_id : ∀ (l : List Char) (run : Nat),
    run + (l.takeWhile (fun c => c == '-')).length < 5 →
    (∀ i, (List.replicate 5 '-').isPrefixOf (List.drop i l) = false) →
    normAux l run = List.replicate run '-' ++ l := by
  intro l
  induction l with
  | nil =>
    intro run hrun _
    simp only [List.takeWhile_nil, List.length_nil, Nat.add_zero] at hrun
    simp [normAux, normRun, if_neg (by omega : ¬ 5 ≤ run)]
  | cons c cs ih =>
    intro run hrun hno
    by_cases hc : c = '-'
    · subst hc
      rw [normAux, if_pos rfl]
      rw [List.takeWhile_cons, if_pos (by decide)] at hrun
      simp only [List.length_cons] at hrun
      have h1 : run + 1 + (cs.takeWhile (fun c => c == '-')).length < 5 := by omega
      have h2 : ∀ i, (List.replicate 5 '-').isPrefixOf (List.drop i cs) = false := by
        intro i
        have := hno (i + 1)
        rwa [List.drop_succ_cons] at this
      rw [ih (run + 1) h1 h2, List.replicate_succ']
      simp [List.append_assoc]
    · rw [normAux, if_neg hc]
      have hrun5 : ¬ 5 ≤ run := by omega
      have h2 : ∀ i, (List.replicate 5 '-').isPrefixOf (List.drop i cs) = false := by
        intro i
        have := hno (i + 1)
        rwa [List.drop_succ_cons] at this
      have h1 : 0 + (cs.takeWhile (fun c => c == '-')).length < 5 := by
        have := leadRun_lt_of_no5 (by simpa using h2 0)
        omega
      rw [ih 0 h1 h2]
      simp [normRun, if_neg hrun5]

theorem norm_id {l : List Char}
    (hno : ∀ i, (List.replicate 5 '-').isPrefixOf (List.drop i l) = false) :
    norm l = l := by
  have h1 : 0 + (l.takeWhile (fun c => c == '-')).length < 5 := by
    have := leadRun_lt_of_no5 (by simpa using hno 0)
    omega
  rw [norm, normAux_id l 0 h1 hno]
  rfl

theorem containsSub_false_pointwise {sub l : List Char} (hsub : sub ≠ [])
    (h : containsSub sub l = false) :
    ∀ i, sub.isPrefixOf (List.drop i l) = false := by
  intro i
  rcases Nat.lt_or_ge i (l.length + 1) with hi | hi
  · cases hp : sub.isPrefixOf (List.drop i l)
    · rfl
    · exfalso
      rw [containsSub] at h
      have : (List.range (l.length + 1)).any
          (fun j => sub.isPrefixOf (List.drop j l)) = true := by
        rw [List.any_eq_true]
        exact ⟨i, List.mem_range.mpr hi, hp⟩
      rw [this] at h
      exact Bool.noConfusion h
  · have hdrop : List.drop i l = [] := List.drop_eq_nil_of_le (by omega)
    rw [hdrop]
    cases sub with
    | nil => exact absurd rfl hsub
    | cons x xs => rfl

/-! ## Separator-split lemmas -/

theorem splitGo_no_match :
    ∀ (l : List Char), (∀ i, sep13.isPrefixOf (List.drop i l) = false) →
      ∀ (fuel : Nat) (acc : List Char), l.length ≤ fuel →
        splitGo fuel acc l = [acc.reverse ++ l] := by
  intro l
  induction l with
  | nil =>
    intro _ fuel acc _
    cases fuel <;> simp [splitGo]
  | cons c cs ih =>
    intro h fuel acc hfuel
    cases fuel with
    | zero => simp at hfuel
    | succ f =>
      have h0 : sep13.isPrefixOf (c :: cs) = false := by
        have := h 0
        rwa [List.drop_zero] at this
      rw [splitGo, if_neg (by rw [h0]; exact Bool.false_ne_true)]
      have h' : ∀ i, sep13.isPrefixOf (List.drop i cs) = false := by
        intro i
        have := h (i + 1)
        rwa [List.drop_succ_cons] at this
      rw [ih h' f (c :: acc) (by simp at hfuel; omega)]
      simp

theorem splitGo_boundary :
    ∀ (A : List Char) (B : List Char) (fuel : Nat) (acc : List Char),
      (∀ i, i < A.length → sep13.isPrefixOf (List.drop i (A ++ (sep13 ++ B))) = false) →
      A.length + 13 + B.length ≤ fuel →
      splitGo fuel acc (A ++ (sep13 ++ B)) =
        (acc.reverse ++ A) :: splitGo (fuel - (A.length + 1)) [] B := by
  intro A
  induction A with
  | nil =>
    intro B fuel acc _ hfuel
    cases fuel with
    | zero => simp at hfuel
    | succ f =>
      simp only [List.nil_append, List.length_nil, Nat.zero_add] at *
      have hsep : sep13 ++ B = '-' :: (List.replicate 12 '-' ++ B) := rfl
      rw [hsep, splitGo, ← hsep, if_pos (isPrefixOf_append_self sep13 B)]
      have hdrop : List.drop 13 (sep13 ++ B) = B := by
        rw [show (13 : Nat) = sep13.length from rfl, List.drop_left]
      rw [hdrop]
      simp
  | cons c A' ih =>
    intro B fuel acc hnm hfuel
    cases fuel with
    | zero => simp at hfuel
    | succ f =>
      have h0 : sep13.isPrefixOf (c :: (A' ++ (sep13 ++ B))) = false := by
        have := hnm 0 (by simp)
        rwa [List.drop_zero, List.cons_append] at this
      rw [List.cons_append, splitGo, if_neg (by rw [h0]; exact Bool.false_ne_true)]
      have hnm' : ∀ i, i < A'.length →
          sep13.isPrefixOf (List.drop i (A' ++ (sep13 ++ B))) = false := by
        intro i hi
        have := hnm (i + 1) (by simp; omega)
        rwa [List.cons_append, List.drop_succ_cons] at this
      have hfuel' : A'.length + 13 + B.length ≤ f := by
        simp only [List.length_cons] at hfuel
        omega
      rw [ih B f (c :: acc) hnm' hfuel']
      have harith : f - (A'.length + 1) = f + 1 - (A'.length + 1 + 1) := by omega
      simp only [List.reverse_cons, List.append_assoc, List.cons_append, List.nil_append,
        List.length_cons]
      rw [harith]

theorem getLast?_replicate_dash (n : Nat) (hn : 0 < n) :
    (List.replicate n '-').getLast? = some '-' := by
  cases n with
  | zero => omega
  | succ k =>
    rw [List.replicate_succ', List.getLast?_concat]

theorem no_match_inside_left {A B : List Char}
    (hA5 : ∀ i, (List.replicate 5 '-').isPrefixOf (List.drop i A) = false)
    (hlast : A.getLast? ≠ some '-') :
    ∀ i, i < A.length → sep13.isPrefixOf (List.drop i (A ++ (sep13 ++ B))) = false := by
  intro i hi
  cases hp : sep13.isPrefixOf (List.drop i (A ++ (sep13 ++ B)))
  · rfl
  exfalso
  rw [ List.isPrefixOf_iff_prefix, List.prefix_iff_eq_take,
    (show sep13.length = 13 from rfl),
    List.drop_append_of_le_length (Nat.le_of_lt hi)] at hp
  have hlenD : (List.drop i A).length = A.length - i := List.length_drop i A
  rcases Nat.lt_or_ge (A.length - i) 5 with hlt | hge
  · -- the dash prefix overruns the end of A, so A ends in a dash
    have e1 : List.take (A.length - i) sep13 = List.drop i A := by
      rw [hp, List.take_take, Nat.min_def, if_pos (by omega : A.length - i ≤ 13),
        ← hlenD, List.take_left]
    have hDrep : List.drop i A = List.replicate (A.length - i) '-' := by
      rw [← e1, (show sep13 = List.replicate 13 '-' from rfl), List.take_replicate,
        Nat.min_def, if_pos (by omega : A.length - i ≤ 13)]
    have hDne : List.drop i A ≠ [] := by
      intro hnil
      rw [hnil] at hlenD
      simp only [List.length_nil] at hlenD
      omega
    have hlastD : A.getLast? = some '-' := by
      conv_lhs => rw [← List.take_append_drop i A]
      rw [List.getLast?_append_of_ne_nil _ hDne, hDrep,
        getLast?_replicate_dash _ (by omega)]
    exact hlast hlastD
  · -- the first five characters of the match lie inside A
    have e1 : List.take 5 sep13 = List.take 5 (List.drop i A) := by
      rw [hp, List.take_take, Nat.min_def, if_pos (by omega : (5 : Nat) ≤ 13),
        List.take_append_of_le_length (by omega)]
    have h1 : List.replicate 5 '-' = List.take 5 (List.drop i A) := by
      rw [← e1]
      decide
    have h5 : (List.replicate 5 '-').isPrefixOf (List.drop i A) = true := by
      rw [ List.isPrefixOf_iff_prefix, List.prefix_iff_eq_take,
        (show (List.replicate 5 '-').length = 5 from by simp)]
      exact h1
    rw [hA5 i] at h5
    exact Bool.noConfusion h5

theorem split13_boundary {A B : List Char}
    (hA5 : ∀ i, (List.replicate 5 '-').isPrefixOf (List.drop i A) = false)
    (hB5 : ∀ i, (List.replicate 5 '-').isPrefixOf (List.drop i B) = false)
    (hlast : A.getLast? ≠ some '-') :
    split13 (A ++ (sep13 ++ B)) = [A, B] := by
  have hB13 : ∀ i, sep13.isPrefixOf (List.drop i B) = false := by
    intro i
    cases hp : sep13.isPrefixOf (List.drop i B)
    · rfl
    exfalso
    rw [ List.isPrefixOf_iff_prefix] at hp
    have h5 : (List.replicate 5 '-').isPrefixOf (List.drop i B) = true := by
      rw [ List.isPrefixOf_iff_prefix]
      exact List.IsPrefix.trans (by decide) hp
    rw [hB5 i] at h5
    exact Bool.noConfusion h5
  have hlen : (A ++ (sep13 ++ B)).length = A.length + 13 + B.length := by
    simp [sep13]
    omega
  rw [split13, hlen, splitGo_boundary A B _ [] (no_match_inside_left hA5 hlast)
    (Nat.le_refl _)]
  have hfuel2 : A.length + 13 + B.length - (A.length + 1) = B.length + 12 := by omega
  rw [hfuel2, splitGo_no_match B hB13 _ [] (by omega)]
  simp

/-! ## Strip and splitlines lemmas -/

theorem dropWhile_eq_drop (p : Char → Bool) (l : List Char) :
    l.dropWhile p = l.drop (l.takeWhile p).length := by
  conv_lhs => rw [show l.dropWhile p =
    List.drop (l.takeWhile p).length ((l.takeWhile p) ++ (l.dropWhile p)) from
      (List.drop_left _ _).symm]
  rw [List.takeWhile_append_dropWhile]

theorem rstripWhile_eq_take (p : Char → Bool) (l : List Char) :
    ∃ k, rstripWhile p l = l.take k := by
  refine ⟨l.length - (l.reverse.takeWhile p).length, ?_⟩
  rw [rstripWhile, dropWhile_eq_drop, List.reverse_drop, List.length_reverse,
    List.reverse_reverse]

theorem rstripWhile_ne_nil {p : Char → Bool} {l : List Char} {x : Char}
    (hx : x ∈ l) (hpx : p x = false) : rstripWhile p l ≠ [] := by
  rw [rstripWhile]
  intro h
  rw [List.reverse_eq_nil_iff, List.dropWhile_eq_nil_iff] at h
  have := h x (List.mem_reverse.mpr hx)
  rw [hpx] at this
  exact Bool.noConfusion this

theorem dropWhile_cons_head {p : Char → Bool} :
    ∀ {l : List Char} {d : Char} {D' : List Char}, l.dropWhile p = d :: D' → p d = false := by
  intro l
  induction l with
  | nil =>
    intro d D' hD
    exact List.noConfusion hD
  | cons c cs ih =>
    intro d D' hD
    cases hpc : p c
    · rw [List.dropWhile_cons, if_neg (by rw [hpc]; exact Bool.false_ne_true)] at hD
      injection hD with h1 _
      rw [← h1]
      exact hpc
    · rw [List.dropWhile_cons, if_pos hpc] at hD
      exact ih hD

theorem pystrip_head {l : List Char} (h : pystrip l ≠ []) :
    ∃ c t, pystrip l = c :: t ∧ isPySpace c = false := by
  obtain ⟨k, hk⟩ := rstripWhile_eq_take isPySpace (l.dropWhile isPySpace)
  rw [pystrip, hk] at h ⊢
  rcases hD : l.dropWhile isPySpace with _ | ⟨d, D'⟩
  · rw [hD] at h
    simp at h
  · rw [hD] at h
    cases k with
    | zero => simp at h
    | succ k' => exact ⟨d, List.take k' D', rfl, dropWhile_cons_head hD⟩

theorem pystrip_mem_imp {l : List Char} : ∀ c ∈ pystrip l, c ∈ l := by
  intro c hc
  rw [pystrip, rstripWhile] at hc
  have h1 : c ∈ (l.dropWhile isPySpace).reverse :=
    (List.dropWhile_subset _) (List.mem_reverse.mp hc)
  exact (List.dropWhile_subset _) (List.mem_reverse.mp (by rwa [List.mem_reverse] at h1 ⊢))

theorem break_is_space {c : Char} (h : isLineBreak c = true) : isPySpace c = true := by
  simp only [isLineBreak, Bool.or_eq_true, beq_iff_eq] at h
  rcases h with rfl | rfl <;> rfl

theorem splitlinesGo_head :
    ∀ (fuel : Nat) (acc l : List Char), l.length ≤ fuel →
      ∃ tail, splitlinesGo fuel acc l =
        (acc.reverse ++ l.takeWhile (fun c => !isLineBreak c)) :: tail := by
  intro fuel
  induction fuel with
  | zero =>
    intro acc l hl
    have : l = [] := by
      cases l with
      | nil => rfl
      | cons c cs => simp at hl
    subst this
    exact ⟨[], by simp [splitlinesGo]⟩
  | succ f ih =>
    intro acc l hl
    cases l with
    | nil => exact ⟨[], by simp [splitlinesGo]⟩
    | cons c cs =>
      cases hbreak : isLineBreak c
      · rw [splitlinesGo, if_neg (by rw [hbreak]; exact Bool.false_ne_true)]
        obtain ⟨tail, htail⟩ := ih (c :: acc) cs (by simp at hl; omega)
        rw [htail, List.takeWhile_cons, if_pos (by rw [hbreak]; rfl)]
        exact ⟨tail, by simp⟩
      · rw [splitlinesGo, if_pos hbreak]
        have htw : List.takeWhile (fun x => !isLineBreak x) (c :: cs) = [] := by
          rw [List.takeWhile_cons, if_neg (by rw [hbreak]; simp)]
        rw [htw, List.append_nil]
        by_cases hrest :
            (if (c == '\r' && cs.head? == some '\n') = true then cs.tail else cs).isEmpty = true
        · rw [if_pos hrest]
          exact ⟨[], rfl⟩
        · rw [if_neg hrest]
          exact ⟨_, rfl⟩

/-- Every batch the reader returns is nonempty and contains only
non-blank (stripped) lines. -/
theorem post_split_batches_ok (pieces : List (List Char)) :
    ∀ b ∈ post_split pieces, b ≠ [] ∧ ∀ link ∈ b, link ≠ [] := by
  intro b hb
  simp only [post_split, List.mem_map, List.mem_filter] at hb
  obtain ⟨batch, ⟨hbatchmem, hbatchne⟩, hb⟩ := hb
  obtain ⟨piece, hpiecemem, hbatch⟩ := hbatchmem
  constructor
  · -- the first line of a non-blank stripped piece survives the blank filter
    subst hb
    have hbatchne' : batch ≠ [] := by
      intro h
      rw [h] at hbatchne
      exact Bool.noConfusion hbatchne
    have hstripne : pystrip piece ≠ [] := by
      intro h
      rw [← hbatch, h] at hbatchne'
      exact hbatchne' rfl
    obtain ⟨c, t, hct, hcspace⟩ := pystrip_head hstripne
    have hsplit : batch = (c :: t.takeWhile (fun x => !isLineBreak x)) ::
        (splitlinesGo (c :: t).length [] (c :: t)).tail := by
      rw [← hbatch, hct, splitlines]
      obtain ⟨tail, htail⟩ :=
        splitlinesGo_head (c :: t).length [] (c :: t) (Nat.le_refl _)
      rw [htail]
      simp only [List.reverse_nil, List.nil_append, List.tail_cons]
      rw [List.takeWhile_cons,
        if_pos (by
          cases hbr : isLineBreak c
          · rfl
          · rw [break_is_space hbr] at hcspace
            exact Bool.noConfusion hcspace)]
    rw [hsplit]
    intro hcontra
    have hfirst : pystrip (c :: t.takeWhile (fun x => !isLineBreak x)) ≠ [] := by
      rw [pystrip, List.dropWhile_cons,
        if_neg (by rw [hcspace]; exact Bool.false_ne_true)]
      exact rstripWhile_ne_nil (List.mem_cons_self _ _) hcspace
    rw [List.filterMap_cons] at hcontra
    rw [if_neg (by
      intro hempty
      rw [List.isEmpty_iff] at hempty
      exact hfirst hempty)] at hcontra
    exact List.noConfusion hcontra
  · intro link hlink
    subst hb
    obtain ⟨line, _, hf⟩ := List.mem_filterMap.mp hlink
    by_cases hempty : (pystrip line).isEmpty = true
    · rw [if_pos hempty] at hf
      exact Option.noConfusion hf
    · rw [if_neg hempty] at hf
      rcases Option.some.inj hf with rfl
      intro hnil
      rw [hnil] at hempty
      exact hempty rfl

/-- C6: reading with a separator run of 5 dashes and with one of 20 (or
any two runs of 5-or-more) yields the same batches, because every such
run is normalized to the same canonical separator before splitting; and
in the result blank lines are discarded and empty batches dropped. -/
theorem separator_normalization_invariance (A B content : List Char) (m n : Nat)
    (hm : 5 ≤ m) (hn : 5 ≤ n)
    (hlast : A.getLast? ≠ some '-') (hhead : B.head? ≠ some '-') :
    read_batches_content (A ++ (List.replicate m '-' ++ B)) =
      read_batches_content (A ++ (List.replicate n '-' ++ B)) ∧
    (∀ b ∈ read_batches_content content, b ≠ [] ∧ ∀ link ∈ b, link ≠ []) := by
  constructor
  · have key : ∀ k, 5 ≤ k →
        norm (A ++ (List.replicate k '-' ++ B)) = norm A ++ (sep13 ++ normAux B 0) := by
      intro k hk
      have hmid : normAux (List.replicate k '-' ++ B) 0 = sep13 ++ normAux B 0 := by
        rw [normAux_replicate B hhead k 0]
        simp only [Nat.zero_add]
        rw [normRun, if_pos hk]
      cases hA : A with
      | nil =>
        simp only [List.nil_append]
        rw [norm, hmid, norm]
        rfl
      | cons a A' =>
        rw [← hA, norm, normAux_append _ A (by rw [hA]; exact List.cons_ne_nil _ _) hlast 0,
          norm, hmid]
        rfl
    rw [read_batches_content, read_batches_content, key m hm, key n hn]
  · exact post_split_batches_ok _

theorem separator_normalization_invariance_witness :
    read_batches_content ("a\n".toList ++ (List.replicate 5 '-' ++ "\nb".toList)) =
      read_batches_content ("a\n".toList ++ (List.replicate 20 '-' ++ "\nb".toList)) :=
  (separator_normalization_invariance "a\n".toList "\nb".toList "x".toList 5 20
    (by decide) (by decide) (by decide) (by decide)).1

/-! ## Where batch boundaries really occur -/

theorem sep13_prefix_to_rep5 {l : List Char}
    (h5 : ∀ i, (List.replicate 5 '-').isPrefixOf (List.drop i l) = false) :
    ∀ i, sep13.isPrefixOf (List.drop i l) = false := by
  intro i
  cases hp : sep13.isPrefixOf (List.drop i l)
  · rfl
  exfalso
  rw [ List.isPrefixOf_iff_prefix] at hp
  have h5' : (List.replicate 5 '-').isPrefixOf (List.drop i l) = true := by
    rw [ List.isPrefixOf_iff_prefix]
    exact List.IsPrefix.trans (by decide) hp
  rw [h5 i] at h5'
  exact Bool.noConfusion h5'

/-- C9 counterexample: a run of five dashes inside a URL line does split
the batch.  The input has three lines, the middle one a URL containing
`-----`; the reader returns two batches, cutting the URL line in half,
not the single three-line batch a line-based separator rule predicts. -/
theorem url_interior_dash_run_splits_batch :
    read_batches_content "url1\nhttps://e.com/a-----b\nurl2".toList =
      [["url1".toList, "https://e.com/a".toList], ["b".toList, "url2".toList]] ∧
    read_batches_content "url1\nhttps://e.com/a-----b\nurl2".toList ≠
      [["url1".toList, "https://e.com/a-----b".toList, "url2".toList]] := by
  constructor
  · decide
  · decide

/-- C9 amended: batch boundaries occur at every maximal run of 5-or-more
dashes, wherever it appears — even inside a URL line — and nowhere else:
content with no 5-dash run is never split, and a 5-or-more dash run
between two run-free parts splits exactly there. -/
theorem dash_runs_split_anywhere (content A B : List Char) (m : Nat)
    (hc : containsSub (List.replicate 5 '-') content = false)
    (hA5 : containsSub (List.replicate 5 '-') A = false)
    (hB5 : containsSub (List.replicate 5 '-') B = false)
    (hlast : A.getLast? ≠ some '-') (hhead : B.head? ≠ some '-') (hm : 5 ≤ m) :
    read_batches_content content = post_split [content] ∧
    read_batches_content (A ++ (List.replicate m '-' ++ B)) = post_split [A, B] := by
  have hrep5 : (List.replicate 5 '-' : List Char) ≠ [] := by decide
  have hnoC := containsSub_false_pointwise hrep5 hc
  have hnoA := containsSub_false_pointwise hrep5 hA5
  have hnoB := containsSub_false_pointwise hrep5 hB5
  constructor
  · rw [read_batches_content, norm_id hnoC, split13,
      splitGo_no_match content (sep13_prefix_to_rep5 hnoC) content.length [] (Nat.le_refl _)]
    simp
  · have hnorm : norm (A ++ (List.replicate m '-' ++ B)) = A ++ (sep13 ++ B) := by
      have hmid : normAux (List.replicate m '-' ++ B) 0 = sep13 ++ B := by
        rw [normAux_replicate B hhead m 0]
        simp only [Nat.zero_add]
        rw [normRun, if_pos hm]
        have hB : normAux B 0 = B := norm_id hnoB
        rw [hB]
      cases hA : A with
      | nil =>
        simp only [List.nil_append]
        rw [norm, hmid]
      | cons a A' =>
        rw [← hA, norm, normAux_append _ A (by rw [hA]; exact List.cons_ne_nil _ _) hlast 0,
          norm, hmid]
        have hAid : normAux A 0 = A := norm_id hnoA
        rw [hAid]
    rw [read_batches_content, hnorm, split13_boundary hnoA hnoB hlast]

theorem dash_runs_split_anywhere_witness :
    read_batches_content ("x".toList ++ (List.replicate 7 '-' ++ "y".toList)) =
      post_split ["x".toList, "y".toList] :=
  (dash_runs_split_anywhere "z".toList "x".toList "y".toList 7
    (by decide) (by decide) (by decide) (by decide) (by decide) (by decide)).2

end BatchCaptions
